import Mathlib

/-!
Verification development for the Contextual Document Pipeline repository.

The definitions below are shallow embeddings of the TypeScript source:
`App.tsx` (pipeline orchestrator, segmenter, enrichment loop, summarization)
and the `KnowledgeGraphViewer` component (graph build, filtering, metrics,
type-clustering centroid lookup).  JavaScript strings are modelled by `String`,
JavaScript numbers arising in the graph code by `ℚ` (the only arithmetic
performed is addition of 0.4 = 2/5 and the density/degree divisions, which are
exact), optional fields by `Option`, and thrown exceptions by `Except` or an
explicit outcome type.
-/

namespace CDP

/-! ### Segmenter (App.tsx, `performChunking`)

`text.split(/\n\s*\n/)` is modelled by `splitParas`: the regular expression
matches a newline, a greedy run of whitespace, then a newline; `String.split`
takes the leftmost match and, within it, the greedy-with-backtracking longest
whitespace run that still leaves a final newline.  `String.prototype.trim` is
modelled by `jsTrim`. -/

/-- JavaScript whitespace (the ASCII part of `\s` / `trim`). -/
def isJsWs (c : Char) : Bool :=
  c = ' ' || c = '\t' || c = '\n' || c = '\r' || c = '\x0b' || c = '\x0c'

/-- Index of the last occurrence of `c` in the list, if any. -/
def lastIdxOf (c : Char) : List Char → Option Nat
  | [] => none
  | a :: rest =>
    match lastIdxOf c rest with
    | some j => some (j + 1)
    | none => if a = c then some 0 else none

/-- If the regex `\n\s*\n` matches at the head of `l`, return the remainder of
`l` after the (greedy, longest) match. -/
def sepRemainder : List Char → Option (List Char)
  | [] => none
  | c :: rest =>
    if c = '\n' then
      match lastIdxOf '\n' (rest.takeWhile isJsWs) with
      | some j => some (rest.drop (j + 1))
      | none => none
    else none

theorem lastIdxOf_lt_length (c : Char) (l : List Char) (j : Nat)
    (h : lastIdxOf c l = some j) : j < l.length := by
  induction l generalizing j with
  | nil => simp [lastIdxOf] at h
  | cons a rest ih =>
    simp only [lastIdxOf] at h
    cases hrec : lastIdxOf c rest with
    | some j' =>
      rw [hrec] at h
      cases h
      have := ih _ hrec
      simp
      omega
    | none =>
      rw [hrec] at h
      by_cases hac : a = c
      · simp [hac] at h
        cases h
        simp
      · simp [hac] at h

theorem sepRemainder_length_lt (l r : List Char) (h : sepRemainder l = some r) :
    r.length < l.length := by
  cases l with
  | nil => simp [sepRemainder] at h
  | cons c rest =>
    simp only [sepRemainder] at h
    by_cases hc : c = '\n'
    · simp only [hc, if_pos rfl] at h
      cases hj : lastIdxOf '\n' (rest.takeWhile isJsWs) with
      | some j =>
        rw [hj] at h
        cases h
        have hlen : (rest.drop (j + 1)).length = rest.length - (j + 1) :=
          List.length_drop _ _
        simp [hlen]
        omega
      | none => rw [hj] at h; cases h
    · simp [hc] at h

/-- The field-splitting loop of `String.prototype.split` for a non-empty-match
regex: accumulate characters of the current field (reversed in `acc`) until a
separator match, then emit the field and continue after the match.  The `fuel`
parameter only serves structural termination; every step consumes at least one
character (`sepRemainder_length_lt`), so with `l.length + 1` units of fuel the
`0` case is unreachable. -/
def splitAux (fuel : Nat) (acc : List Char) (l : List Char) : List (List Char) :=
  match fuel with
  | 0 => [acc.reverse ++ l]
  | fuel + 1 =>
    match l with
    | [] => [acc.reverse]
    | c :: rest =>
      match sepRemainder (c :: rest) with
      | some r => acc.reverse :: splitAux fuel [] r
      | none => splitAux fuel (c :: acc) rest

/-- `text.split(/\n\s*\n/)` from `performChunking`. -/
def splitParas (text : String) : List String :=
  (splitAux (text.data.length + 1) [] text.data).map (fun l => String.mk l)

/-- `String.prototype.trim`: strip JS whitespace from both ends. -/
def jsTrim (s : String) : String :=
  String.mk (((s.data.dropWhile isJsWs).reverse.dropWhile isJsWs).reverse)

/-- The greedy paragraph-accumulation loop of `performChunking`: while the
current chunk plus the next paragraph would exceed `size` (and the current
chunk is non-empty) the current chunk is emitted (trimmed); otherwise the
paragraph is appended with a `"\n\n"` joiner.  The final non-empty chunk is
emitted at the end. -/
def chunkLoop (size : Nat) : List String → String → List String
  | [], cur => if cur ≠ "" then [jsTrim cur] else []
  | p :: ps, cur =>
    if size < (cur ++ p).length ∧ cur ≠ "" then
      jsTrim cur :: chunkLoop size ps p
    else
      chunkLoop size ps (cur ++ (if cur ≠ "" then "\n\n" else "") ++ p)

/-- `performChunking(text, size)` from App.tsx lines 179–195. -/
def performChunking (text : String) (size : Nat) : List String :=
  let chunks := chunkLoop size (splitParas text) ""
  if 0 < chunks.length then chunks else [text]

/-! ### Data model (types.ts) -/

/-- `Entities` from types.ts. -/
structure Entities where
  people : List String
  organizations : List String
  locations : List String
deriving DecidableEq

/-- `Chunk` from types.ts: created by the segmenter with only `id` and
`originalText` set; the remaining fields are optional. -/
structure Chunk where
  id : String
  originalText : String
  enrichedContext : Option String
  keywords : Option (List String)
  sentiment : Option String
  entities : Option Entities
  summary : Option String
deriving DecidableEq

/-- `ProcessingStage` from types.ts. -/
inductive ProcessingStage
  | IDLE
  | PARSING
  | CHUNKING
  | ENRICHING
  | COMPLETE
  | ERROR
deriving DecidableEq

/-! ### Pipeline orchestrator (App.tsx, `handleInput` and friends)

The external AI capabilities (`parseDocument`, `generateDocumentSummary`,
`enrichChunk`, `generateChunkSummary`) are opaque; they are modelled by
oracle parameters of type `Except String _` (or `EnrichOutcome` per chunk),
a rejected promise being the `error` case.  The process-wide cancellation
flag `cancellationRef` is read at a fixed series of poll points inside
`handleInput`; it is modelled by a function `flag : Nat → Bool` giving the
value read at the `t`-th poll: poll 0 is the check after extraction, poll 1
the check after `parseDocument`, poll 2 the check after the chunking delay,
and the enrichment loop for chunk `i` polls at `3 + 2i` (top of the
iteration) and `4 + 2i` (after a successful `enrichChunk` await). -/

/-- The structured payload returned by the `enrichChunk` capability
(`{context, keywords, sentiment, entities}`), each field possibly absent. -/
structure Enrichment where
  context : Option String
  keywords : Option (List String)
  sentiment : Option String
  entities : Option Entities
deriving DecidableEq

/-- Outcome of one `enrichChunk` call: a payload, or a thrown error. -/
inductive EnrichOutcome
  | ok (e : Enrichment)
  | err (msg : String)
deriving DecidableEq

/-- JavaScript `x || d` for an optional string: `undefined` and `""` are
falsy and yield the default. -/
def strFalsyDefault (o : Option String) (d : String) : String :=
  match o with
  | none => d
  | some s => if s = "" then d else s

/-- Success branch of the enrichment loop body (App.tsx lines 144–150):
`enrichedContext = enrichment.context || "No context provided"`, etc.
(an empty array or object is truthy in JavaScript, so `keywords` and
`entities` only default when absent). -/
def applyEnrichment (c : Chunk) (e : Enrichment) : Chunk :=
  { c with
    enrichedContext := some (strFalsyDefault e.context "No context provided"),
    keywords := some (e.keywords.getD []),
    sentiment := some (strFalsyDefault e.sentiment "Neutral"),
    entities := some (e.entities.getD { people := [], organizations := [], locations := [] }) }

/-- Effect of iteration `i` of the enrichment loop on chunk `i`, ignoring
cancellation: success populates the four enrichment fields, failure sets the
`"Enrichment failed"` sentinel and leaves the other fields untouched. -/
def enrichOne (c : Chunk) (o : EnrichOutcome) : Chunk :=
  match o with
  | .ok e => applyEnrichment c e
  | .err _ => { c with enrichedContext := some "Enrichment failed" }

/-- The per-chunk enrichment loop (App.tsx lines 135–157).  `i` is the index
of the current chunk; the flag is polled at the top of each iteration and
again after a successful `enrichChunk` await (in which case the fresh result
is discarded).  Returns the final chunk array and whether the loop ran to
completion (`true` = fall through to the COMPLETE transition). -/
def enrichLoop (flag : Nat → Bool) (res : Nat → EnrichOutcome) :
    Nat → List Chunk → List Chunk × Bool
  | _, [] => ([], true)
  | i, c :: rest =>
    if flag (2 * i) then (c :: rest, false)
    else
      match res i with
      | .ok e =>
        if flag (2 * i + 1) then (c :: rest, false)
        else
          let r := enrichLoop flag res (i + 1) rest
          (applyEnrichment c e :: r.1, r.2)
      | .err _ =>
        let r := enrichLoop flag res (i + 1) rest
        ({ c with enrichedContext := some "Enrichment failed" } :: r.1, r.2)

/-- Denotation of the enrichment loop when the flag is never observed set:
chunk `j` (counting from start index `i`) becomes `enrichOne`d with outcome
`res j`. -/
def enrichMap (res : Nat → EnrichOutcome) : Nat → List Chunk → List Chunk
  | _, [] => []
  | i, c :: rest => enrichOne c (res i) :: enrichMap res (i + 1) rest

/-- Does `needle` occur at the head of the haystack? -/
def substrAt : List Char → List Char → Bool
  | [], _ => true
  | _ :: _, [] => false
  | c :: cs, d :: ds => c == d && substrAt cs ds

/-- Does `needle` occur anywhere in the haystack? -/
def containsSearch (needle : List Char) : List Char → Bool
  | [] => needle.isEmpty
  | d :: ds => substrAt needle (d :: ds) || containsSearch needle ds

/-- JavaScript `hay.includes(needle)`: case-sensitive substring test. -/
def jsIncludes (hay needle : String) : Bool :=
  containsSearch needle.data hay.data

/-- The remapped context-window error message (App.tsx line 172). -/
def ctxWindowMsg : String :=
  "Document is too large for the model" ++ String.singleton '\'' ++
    "s context window. Try a smaller file."

/-- Error classification of the outer catch (App.tsx lines 170–173): a
"token count exceeds" signal is remapped, everything else propagates. -/
def remapErr (msg : String) : String :=
  if jsIncludes msg "token count exceeds" then ctxWindowMsg else msg

/-- `CHUNK_SIZE` constant (App.tsx line 40). -/
def CHUNK_SIZE : Nat := 500

/-- `MAX_CHAR_LIMIT` constant (App.tsx line 41). -/
def MAX_CHAR_LIMIT : Nat := 1000000

/-- A chunk as created by the segmenter stage: only `id` and `originalText`
set, with `id = "chk_" + Date.now() + "_" + idx` (`now` models `Date.now()`). -/
def freshChunk (now idx : Nat) (text : String) : Chunk :=
  { id := "chk_" ++ toString now ++ "_" ++ toString idx,
    originalText := text,
    enrichedContext := none, keywords := none, sentiment := none,
    entities := none, summary := none }

/-- `rawChunks.map((text, idx) => ({id: ..., originalText: text}))`. -/
def mkChunksFrom (now : Nat) : Nat → List String → List Chunk
  | _, [] => []
  | idx, t :: rest => freshChunk now idx t :: mkChunksFrom now (idx + 1) rest

/-- The initial chunk array built at the CHUNKING stage. -/
def mkChunks (now : Nat) (texts : List String) : List Chunk :=
  mkChunksFrom now 0 texts

/-- The observable outcome of a pipeline run: final stage, final chunk
array, and the error banner, if any. -/
structure RunResult where
  stage : ProcessingStage
  chunks : List Chunk
  error : Option String
deriving DecidableEq

/-- `handleInput(data, 'text')` (App.tsx lines 63–177) for a plain-text
input, as a function of the capability oracles and the cancellation-flag
poll sequence.  `prevStage`/`prevChunks` are the state before the call
(relevant only for the fail-fast size-limit branch, which returns before any
transition).  Early cancellation returns leave the stage at whatever it was
last set to and raise no completion or error transition. -/
def handleInput (flag : Nat → Bool) (parseRes : Except String String)
    (summaryRes : Except String String) (res : Nat → EnrichOutcome)
    (now : Nat) (prevStage : ProcessingStage) (prevChunks : List Chunk)
    (data : String) : RunResult :=
  if MAX_CHAR_LIMIT < data.length then
    { stage := prevStage, chunks := prevChunks,
      error := some ("Document exceeds safety limits (" ++
        toString ((data.length + 512) / 1024) ++
        "KB). Please use a smaller segment.") }
  else if flag 0 then { stage := .PARSING, chunks := [], error := none }
  else
    match parseRes with
    | .error msg =>
      if flag 1 then { stage := .PARSING, chunks := [], error := none }
      else { stage := .ERROR, chunks := [], error := some (remapErr msg) }
    | .ok parsedText =>
      if flag 1 then { stage := .PARSING, chunks := [], error := none }
      else if parsedText = "" then
        { stage := .ERROR, chunks := [],
          error := some "Parsed document is empty or unreadable." }
      else if flag 2 then { stage := .CHUNKING, chunks := [], error := none }
      else
        let chunks0 := mkChunks now (performChunking parsedText CHUNK_SIZE)
        match summaryRes with
        | .error msg =>
          if flag 3 then { stage := .ENRICHING, chunks := chunks0, error := none }
          else { stage := .ERROR, chunks := chunks0, error := some (remapErr msg) }
        | .ok _ =>
          let r := enrichLoop (fun t => flag (t + 3)) res 0 chunks0
          if r.2 then { stage := .COMPLETE, chunks := r.1, error := none }
          else { stage := .ENRICHING, chunks := r.1, error := none }

/-! ### Per-chunk summarization (App.tsx, `handleSummarizeChunk` and
`handleSummarizeAll`) -/

/-- `newChunks[chunkIndex] = { ...newChunks[chunkIndex], summary }`. -/
def setSummaryAt : List Chunk → Nat → String → List Chunk
  | [], _, _ => []
  | c :: rest, 0, s => { c with summary := some s } :: rest
  | c :: rest, n + 1, s => c :: setSummaryAt rest n s

/-- JavaScript `Array.prototype.findIndex`, with `none` for `-1`. -/
def jsFindIndex (p : Chunk → Bool) : List Chunk → Option Nat
  | [] => none
  | c :: rest => if p c then some 0 else (jsFindIndex p rest).map (· + 1)

/-- `handleSummarizeChunk(chunkId)` (App.tsx lines 212–225): find the chunk
by id (returning unchanged if absent), invoke the `generateChunkSummary`
capability on its `originalText` (the summarizing oracle is `summ`), set the
`summary` field on success, swallow the error on failure.  The second
component counts capability invocations (0 or 1). -/
def summarizeOne (summ : String → Except String String) (chunks : List Chunk)
    (cid : String) : List Chunk × Nat :=
  match jsFindIndex (fun c => c.id == cid) chunks with
  | none => (chunks, 0)
  | some idx =>
    match chunks[idx]? with
    | none => (chunks, 0)
    | some c =>
      match summ c.originalText with
      | .ok s => (setSummaryAt chunks idx s, 1)
      | .error _ => (chunks, 1)

/-- JavaScript falsiness of an optional string (`!c.summary`): absent or
empty. -/
def jsFalsy (o : Option String) : Bool :=
  match o with
  | none => true
  | some s => s == ""

/-- The `for (const chunk of chunksToSummarize)` loop of
`handleSummarizeAll`: the flag is polled once per pre-selected chunk id;
when observed set the loop breaks.  Also accumulates the number of
capability invocations. -/
def summarizeAllLoop (flag : Nat → Bool) (summ : String → Except String String) :
    List String → Nat → List Chunk → List Chunk × Nat
  | [], _, cs => (cs, 0)
  | cid :: rest, t, cs =>
    if flag t then (cs, 0)
    else
      let r := summarizeOne summ cs cid
      let r2 := summarizeAllLoop flag summ rest (t + 1) r.1
      (r2.1, r.2 + r2.2)

/-- `handleSummarizeAll` (App.tsx lines 227–240): select the chunks whose
`summary` is falsy (absent or empty), then summarize each in turn by id. -/
def handleSummarizeAll (flag : Nat → Bool) (summ : String → Except String String)
    (chunks : List Chunk) : List Chunk × Nat :=
  let ids := (chunks.filter (fun c => jsFalsy c.summary)).map (fun c => c.id)
  summarizeAllLoop flag summ ids 0 chunks

/-- The frame-preserved projection of a chunk: its identity and source text. -/
def chunkCore (c : Chunk) : String × String :=
  (c.id, c.originalText)

/-! ### Knowledge graph viewer (the `KnowledgeGraphViewer` component)

The `useMemo` block "Process Graph Data" is embedded as pure functions.
JavaScript objects are mutated through a `Map` whose bindings keep the
**last** node object for a duplicated id (`new Map` semantics), so the
neighbor/weight updates are applied to the last occurrence (`updateLast`);
node identity is tracked by `id`, which the updates never change.  The
visual weight accumulates `+0.4` per incident edge, modelled exactly as
`+2/5 : ℚ`. -/

/-- `GraphNode` from types.ts. -/
structure GraphNode where
  id : String
  label : String
  type : String
deriving DecidableEq

/-- `GraphEdge` from types.ts. -/
structure GraphEdge where
  source : String
  target : String
  relation : String
deriving DecidableEq

/-- `KnowledgeGraph` from types.ts. -/
structure KnowledgeGraph where
  nodes : List GraphNode
  edges : List GraphEdge
deriving DecidableEq

/-- `ExtendedNode`: a graph node with the derived `val` (visual weight) and
neighbor list (kept as ids — the pushed neighbor objects are only ever read
through their immutable `id` and their count). -/
structure BNode where
  id : String
  label : String
  type : String
  val : ℚ
  neighbors : List String
deriving DecidableEq

/-- `ExtendedLink`: a resolved edge (endpoint objects read through ids). -/
structure BLink where
  source : String
  target : String
  relation : String
deriving DecidableEq

/-- `data.nodes.map(n => ({...n, neighbors: [], links: [], val: 1}))`. -/
def initNodes (ns : List GraphNode) : List BNode :=
  ns.map fun n =>
    { id := n.id, label := n.label, type := n.type, val := 1, neighbors := [] }

/-- Update the first element satisfying `p` (helper for `updateLast`). -/
def updateFirst (p : BNode → Bool) (f : BNode → BNode) : List BNode → List BNode
  | [] => []
  | a :: rest => if p a then f a :: rest else a :: updateFirst p f rest

/-- Update the last element satisfying `p`: the object bound in the node
`Map` for a given id is the last node with that id. -/
def updateLast (p : BNode → Bool) (f : BNode → BNode) (l : List BNode) : List BNode :=
  (updateFirst p f l.reverse).reverse

/-- `node.neighbors.push(other); node.val = (node.val || 1) + 0.4` applied to
the map binding of `nid` (`val` is always ≥ 1, so `|| 1` never fires). -/
def addNeighbor (nid other : String) (nodes : List BNode) : List BNode :=
  updateLast (fun n => n.id == nid)
    (fun n => { n with neighbors := n.neighbors ++ [other], val := n.val + 2/5 })
    nodes

/-- One iteration of the `links.forEach` edge-resolution loop: if both
endpoint ids resolve in the node map, record the neighbors, bump both
weights, and append the resolved link; otherwise drop the edge. -/
def buildStep (st : List BNode × List BLink) (e : GraphEdge) : List BNode × List BLink :=
  if st.1.any (fun n => n.id == e.source) && st.1.any (fun n => n.id == e.target) then
    (addNeighbor e.target e.source (addNeighbor e.source e.target st.1),
     st.2 ++ [{ source := e.source, target := e.target, relation := e.relation }])
  else st

/-- Steps 1–2 of the `useMemo`: clone nodes, build the id map, resolve each
edge and accumulate neighbors/weights/links. -/
def buildGraph (g : KnowledgeGraph) : List BNode × List BLink :=
  g.edges.foldl buildStep (initNodes g.nodes, [])

/-- Step 3 of the `useMemo` (the filtering logic): focus-isolation when
`focusNodeId` is set (and found), otherwise leaf-pruning when enabled,
otherwise everything visible. -/
def visibleParts (nodes : List BNode) (links : List BLink)
    (focusNodeId : Option String) (pruneLeafNodes : Bool) :
    List BNode × List BLink :=
  match focusNodeId with
  | some fid =>
    match nodes.reverse.find? (fun n => n.id == fid) with
    | some focusNode =>
      let allowedIds := fid :: focusNode.neighbors
      (nodes.filter (fun n => allowedIds.contains n.id),
       links.filter (fun l =>
         allowedIds.contains l.source && allowedIds.contains l.target))
    | none => (nodes, links)
  | none =>
    if pruneLeafNodes then
      let activeNodes := nodes.filter (fun n => decide (1 < n.neighbors.length))
      let activeIds := activeNodes.map (fun n => n.id)
      (activeNodes,
       links.filter (fun l =>
         activeIds.contains l.source && activeIds.contains l.target))
    else (nodes, links)

/-- The leaf-pruning visibility as worded by the spec (§4.5): visible nodes
are those with neighbor count above one, visible edges those whose both
endpoints survive; nothing is hidden when pruning is off.  Used to state
that clearing the focus restores exactly the prune-determined view. -/
def specLeafPruneView (nodes : List BNode) (links : List BLink)
    (prune : Bool) : List BNode × List BLink :=
  if prune then
    let surviving := nodes.filter (fun n => decide (1 < n.neighbors.length))
    let survivingIds := surviving.map (fun n => n.id)
    (surviving,
     links.filter (fun l =>
       survivingIds.contains l.source && survivingIds.contains l.target))
  else (nodes, links)

/-- `density` over the visible subgraph (0 when at most one node). -/
def densityOf (vn : List BNode) (vl : List BLink) : ℚ :=
  if 1 < vn.length then
    (2 * vl.length : ℚ) / ((vn.length : ℚ) * ((vn.length : ℚ) - 1))
  else 0

/-- `avgDegree` over the visible subgraph (0 when empty). -/
def avgDegreeOf (vn : List BNode) (vl : List BLink) : ℚ :=
  if vn.length ≠ 0 then (vl.length : ℚ) / (vn.length : ℚ) * 2 else 0

/-- Insertion step of a stable descending sort by `key`: the element goes
before the first entry with a key not larger than its own, so earlier-input
elements precede later ties. -/
def insertDesc (key : BNode → ℚ) (a : BNode) : List BNode → List BNode
  | [] => [a]
  | b :: rest =>
    if key a < key b then b :: insertDesc key a rest else a :: b :: rest

/-- Stable descending sort by `key` — the unique result of
`[...nodes].sort((a, b) => (b.val || 0) - (a.val || 0))` under the
(ECMAScript-mandated) stable-sort contract. -/
def stableSortDesc (key : BNode → ℚ) : List BNode → List BNode
  | [] => []
  | a :: rest => insertDesc key a (stableSortDesc key rest)

/-- `topNodes = sortedNodes.slice(0, 5)`. -/
def topNodesOf (vn : List BNode) : List BNode :=
  (stableSortDesc (fun n => n.val) vn).take 5

/-- The `typeFoci` table of the clustering force (key insertion order is the
`for...in` iteration order). -/
def typeFoci : List (String × ℚ × ℚ) :=
  [("Person", (-180, -120)), ("Organization", (180, -120)),
   ("Location", (0, 180)), ("default", (0, 0))]

/-- Centroid selection of the clustering force: `node.type || 'default'`,
then the first key of `typeFoci` for which `type.includes(key)` holds
(a case-sensitive substring test), defaulting to the origin centroid. -/
def centroidFor (t : String) : ℚ × ℚ :=
  let ty := if t = "" then "default" else t
  match typeFoci.find? (fun kv => jsIncludes ty kv.1) with
  | some kv => kv.2
  | none => (0, 0)

/-- The per-tick velocity nudge of the clustering force:
`vx += (focus.x - x) * alpha * 0.12` (and likewise for `vy`). -/
def clusterNudge (alpha x y vx vy : ℚ) (t : String) : ℚ × ℚ :=
  let f := centroidFor t
  (vx + (f.1 - x) * alpha * (12 / 100), vy + (f.2 - y) * alpha * (12 / 100))

/-- The four-node example graph of the spec's density scenario:
edges (A,B), (B,C), (C,D). -/
def exampleGraph : KnowledgeGraph :=
  { nodes := [{ id := "A", label := "A", type := "Person" },
              { id := "B", label := "B", type := "Person" },
              { id := "C", label := "C", type := "Organization" },
              { id := "D", label := "D", type := "Location" }],
    edges := [{ source := "A", target := "B", relation := "knows" },
              { source := "B", target := "C", relation := "works at" },
              { source := "C", target := "D", relation := "located in" }] }

theorem length_dropWhile_le (p : Char → Bool) (l : List Char) :
    (l.dropWhile p).length ≤ l.length := by
  induction l with
  | nil => simp [List.dropWhile]
  | cons a rest ih =>
    simp only [List.dropWhile]
    by_cases h : p a
    · simp [h]; omega
    · simp [h]

theorem jsTrim_length_le (s : String) : (jsTrim s).length ≤ s.length := by
  have h1 := length_dropWhile_le isJsWs s.data
  have h2 := length_dropWhile_le isJsWs (s.data.dropWhile isJsWs).reverse
  simp only [jsTrim, String.length]
  simp only [List.length_reverse] at *
  omega

theorem string_length_append (s t : String) : (s ++ t).length = s.length + t.length :=
  String.length_append s t

theorem string_empty_append (s : String) : "" ++ s = s := rfl

/-- Invariant of the accumulation loop: every emitted chunk is either short
(at most `size + 2` characters, the two-character joiner being invisible to
the overflow check) or the trim of a single oversized paragraph. -/
theorem chunkLoop_bound (size : Nat) (P : List String) :
    ∀ (ps : List String) (cur : String), (∀ p ∈ ps, p ∈ P) →
    (cur.length ≤ size + 2 ∨ cur ∈ P) →
    ∀ c ∈ chunkLoop size ps cur,
      c.length ≤ size + 2 ∨ ∃ p ∈ P, c = jsTrim p ∧ size + 2 < p.length := by
  intro ps
  induction ps with
  | nil =>
    intro cur _ hcur c hc
    simp only [chunkLoop] at hc
    by_cases h : cur ≠ ""
    · rw [if_pos h] at hc
      have hceq : c = jsTrim cur := List.mem_singleton.mp hc
      subst hceq
      by_cases hlen : cur.length ≤ size + 2
      · exact Or.inl (le_trans (jsTrim_length_le cur) hlen)
      · rcases hcur with hshort | hmem
        · exact absurd hshort hlen
        · exact Or.inr ⟨cur, hmem, rfl, by omega⟩
    · rw [if_neg h] at hc
      exact absurd hc (List.not_mem_nil c)
  | cons p ps ih =>
    intro cur hps hcur c hc
    have hpP : p ∈ P := hps p (List.mem_cons_self _ _)
    have hpsP : ∀ q ∈ ps, q ∈ P := fun q hq => hps q (List.mem_cons_of_mem _ hq)
    simp only [chunkLoop] at hc
    by_cases hcond : size < (cur ++ p).length ∧ cur ≠ ""
    · rw [if_pos hcond] at hc
      rcases List.mem_cons.mp hc with hhead | htail
      · subst hhead
        by_cases hlen : cur.length ≤ size + 2
        · exact Or.inl (le_trans (jsTrim_length_le cur) hlen)
        · rcases hcur with hshort | hmem
          · exact absurd hshort hlen
          · exact Or.inr ⟨cur, hmem, rfl, by omega⟩
      · exact ih p hpsP (Or.inr hpP) c htail
    · rw [if_neg hcond] at hc
      by_cases hemp : cur = ""
      · subst hemp
        have : ("" ++ (if ("" : String) ≠ "" then "\n\n" else "") ++ p) = p := by
          simp [string_empty_append]
        rw [this] at hc
        exact ih p hpsP (Or.inr hpP) c hc
      · have hle : (cur ++ p).length ≤ size := by
          rcases Decidable.not_and_iff_or_not.mp hcond with h1 | h2
          · omega
          · exact absurd hemp (by simpa using h2)
        have hlen2 : (cur ++ (if cur ≠ "" then "\n\n" else "") ++ p).length ≤ size + 2 := by
          rw [if_pos hemp]
          rw [string_length_append, string_length_append]
          rw [string_length_append] at hle
          have : ("\n\n" : String).length = 2 := rfl
          omega
        exact ih _ hpsP (Or.inl hlen2) c hc

/-- The accumulation loop produces no chunk exactly when the accumulator is
empty and every remaining paragraph is the empty string. -/
theorem chunkLoop_eq_nil (size : Nat) :
    ∀ (ps : List String) (cur : String),
    chunkLoop size ps cur = [] → cur = "" ∧ ∀ p ∈ ps, p = "" := by
  intro ps
  induction ps with
  | nil =>
    intro cur h
    simp only [chunkLoop] at h
    by_cases hemp : cur ≠ ""
    · simp [hemp] at h
    · simp at hemp
      exact ⟨hemp, by simp⟩
  | cons p ps ih =>
    intro cur h
    simp only [chunkLoop] at h
    by_cases hcond : size < (cur ++ p).length ∧ cur ≠ ""
    · rw [if_pos hcond] at h
      simp at h
    · rw [if_neg hcond] at h
      have ⟨hcur', hall⟩ := ih _ h
      have hlen : (cur ++ (if cur ≠ "" then "\n\n" else "") ++ p).length = 0 := by
        rw [hcur']; rfl
      rw [string_length_append, string_length_append] at hlen
      have hcur : cur = "" := by
        have : cur.length = 0 := by omega
        cases cur with
        | mk data => cases data with
          | nil => rfl
          | cons a l => simp [String.length] at this
      have hp : p = "" := by
        have : p.length = 0 := by omega
        cases p with
        | mk data => cases data with
          | nil => rfl
          | cons a l => simp [String.length] at this
      refine ⟨hcur, fun q hq => ?_⟩
      rcases List.mem_cons.mp hq with rfl | hq'
      · exact hp
      · exact hall q hq'

/-- All chunks of the empty accumulator run: instantiation of `chunkLoop_eq_nil`
in the other direction — if every paragraph is empty the loop emits nothing. -/
theorem chunkLoop_all_empty (size : Nat) :
    ∀ (ps : List String), (∀ p ∈ ps, p = "") → chunkLoop size ps "" = [] := by
  intro ps
  induction ps with
  | nil => intro _; simp [chunkLoop]
  | cons p ps ih =>
    intro hall
    have hp : p = "" := hall p (List.mem_cons_self _ _)
    subst hp
    simp only [chunkLoop]
    have hcond : ¬(size < (("" : String) ++ "").length ∧ ("" : String) ≠ "") := by
      simp
    rw [if_neg hcond]
    have : (("" : String) ++ (if ("" : String) ≠ "" then "\n\n" else "") ++ "") = "" := rfl
    rw [this]
    exact ih (fun q hq => hall q (List.mem_cons_of_mem _ hq))

/-- C1 (amended): every chunk emitted by `performChunking` has length at most
`targetSize + 2` (the greedy overflow check does not count the two-character
`"\n\n"` joiner appended between paragraphs), unless it is the trim of a
single paragraph longer than `targetSize` (kept intact), or the whole-input
fallback chunk that is returned when every paragraph is the empty string. -/
theorem performChunking_size_bound (text : String) (size : Nat) :
    ∀ c ∈ performChunking text size,
      c.length ≤ size + 2 ∨
      (∃ p ∈ splitParas text, c = jsTrim p ∧ size < p.length) ∨
      (c = text ∧ ∀ p ∈ splitParas text, p = "") := by
  intro c hc
  simp only [performChunking] at hc
  by_cases hpos : 0 < (chunkLoop size (splitParas text) "").length
  · rw [if_pos hpos] at hc
    have := chunkLoop_bound size (splitParas text) (splitParas text) ""
      (fun p hp => hp) (Or.inl (by simp [String.length])) c hc
    rcases this with h | ⟨p, hp, hceq, hplen⟩
    · exact Or.inl h
    · exact Or.inr (Or.inl ⟨p, hp, hceq, by omega⟩)
  · rw [if_neg hpos] at hc
    have hnil : chunkLoop size (splitParas text) "" = [] := by
      cases h : chunkLoop size (splitParas text) "" with
      | nil => rfl
      | cons a l => rw [h] at hpos; simp at hpos
    have ⟨_, hall⟩ := chunkLoop_eq_nil size (splitParas text) "" hnil
    simp at hc
    exact Or.inr (Or.inr ⟨hc, hall⟩)

/-- Witness for `performChunking_size_bound` at a concrete input. -/
theorem performChunking_size_bound_witness :
    "a" ∈ performChunking "a" 5 ∧
    ("a".length ≤ 5 + 2 ∨
      (∃ p ∈ splitParas "a", "a" = jsTrim p ∧ 5 < p.length) ∨
      ("a" = "a" ∧ ∀ p ∈ splitParas "a", p = "")) :=
  ⟨by decide, performChunking_size_bound "a" 5 "a" (by decide)⟩

/-- C1 counterexample: with target size 9 the two four-character paragraphs of
`"aaaa\n\nbbbb"` are merged into a single ten-character chunk (the overflow
check ignores the `"\n\n"` joiner), which exceeds the target size yet is not a
single oversized paragraph — refuting the claim as stated. -/
theorem chunk_size_claim_counterexample :
    ¬ (∀ c ∈ performChunking "aaaa\n\nbbbb" 9,
        c.length ≤ 9 ∨ ∃ p ∈ splitParas "aaaa\n\nbbbb", c = jsTrim p ∧ 9 < p.length) := by
  decide

/-- C10 (amended): `performChunking` always returns a non-empty list, and the
verbatim whole-input fallback is returned when every paragraph of the split is
the empty string (e.g. for `""` or `"\n\n"`).  (A whitespace-only input such
as `" "` instead survives accumulation and is emitted trimmed — see the
counterexample.) -/
theorem performChunking_nonempty (text : String) (size : Nat) :
    performChunking text size ≠ [] ∧
    ((∀ p ∈ splitParas text, p = "") → performChunking text size = [text]) := by
  constructor
  · simp only [performChunking]
    by_cases hpos : 0 < (chunkLoop size (splitParas text) "").length
    · rw [if_pos hpos]
      intro h
      rw [h] at hpos
      simp at hpos
    · rw [if_neg hpos]
      simp
  · intro hall
    simp only [performChunking]
    rw [chunkLoop_all_empty size (splitParas text) hall]
    simp

/-- Witness for `performChunking_nonempty` at a concrete input. -/
theorem performChunking_nonempty_witness :
    performChunking "\n\n" 500 ≠ [] ∧ performChunking "\n\n" 500 = ["\n\n"] := by
  have h := performChunking_nonempty "\n\n" 500
  exact ⟨h.1, h.2 (by decide)⟩

/-- C10 counterexample: for the whitespace-only input `" "` the accumulator is
the non-empty string `" "`, so the loop emits its trim `""` and the result is
`[""]`, not the claimed verbatim fallback `[" "]`. -/
theorem chunking_fallback_counterexample :
    performChunking " " 500 = [""] ∧ performChunking " " 500 ≠ [" "] := by
  decide

/-! ### Enrichment-loop lemmas -/

theorem enrichLoop_of_flag_false (flag : Nat → Bool) (res : Nat → EnrichOutcome)
    (hf : ∀ t, flag t = false) :
    ∀ (i : Nat) (cs : List Chunk),
      enrichLoop flag res i cs = (enrichMap res i cs, true) := by
  intro i cs
  induction cs generalizing i with
  | nil => rfl
  | cons c rest ih =>
    simp only [enrichLoop, hf]
    cases hres : res i with
    | ok e => simp [hf, enrichMap, hres, ih, enrichOne]
    | err msg => simp [enrichMap, hres, ih, enrichOne]

theorem enrichMap_getElem? (res : Nat → EnrichOutcome) :
    ∀ (i t : Nat) (cs : List Chunk),
      (enrichMap res i cs)[t]? = (cs[t]?).map (fun c => enrichOne c (res (i + t))) := by
  intro i t cs
  induction cs generalizing i t with
  | nil => simp [enrichMap]
  | cons c rest ih =>
    cases t with
    | zero => simp [enrichMap]
    | succ t' =>
      have harith : i + (t' + 1) = (i + 1) + t' := by omega
      simp only [enrichMap, List.getElem?_cons_succ, harith]
      exact ih (i + 1) t'

theorem enrichMap_length (res : Nat → EnrichOutcome) :
    ∀ (i : Nat) (cs : List Chunk), (enrichMap res i cs).length = cs.length := by
  intro i cs
  induction cs generalizing i with
  | nil => rfl
  | cons c rest ih => simp [enrichMap, ih]

theorem mkChunksFrom_getElem? (now : Nat) :
    ∀ (i t : Nat) (ts : List String),
      (mkChunksFrom now i ts)[t]? = (ts[t]?).map (fun s => freshChunk now (i + t) s) := by
  intro i t ts
  induction ts generalizing i t with
  | nil => simp [mkChunksFrom]
  | cons s rest ih =>
    cases t with
    | zero => simp [mkChunksFrom]
    | succ t' =>
      have harith : i + (t' + 1) = (i + 1) + t' := by omega
      simp only [mkChunksFrom, List.getElem?_cons_succ, harith]
      exact ih (i + 1) t'

theorem mkChunksFrom_length (now : Nat) :
    ∀ (i : Nat) (ts : List String), (mkChunksFrom now i ts).length = ts.length := by
  intro i ts
  induction ts generalizing i with
  | nil => rfl
  | cons s rest ih => simp [mkChunksFrom, ih]

/-- If the flag is first observed set at poll `2 * m` (the top of iteration
`m`), the loop writes the outcomes of chunks below `m`, leaves the rest
untouched, and reports non-completion. -/
theorem enrichLoop_stops (flag : Nat → Bool) (res : Nat → EnrichOutcome) (m : Nat)
    (hlo : ∀ t, t < 2 * m → flag t = false) (hhi : flag (2 * m) = true) :
    ∀ (cs : List Chunk) (i : Nat), i ≤ m → m - i < cs.length →
      enrichLoop flag res i cs =
        (enrichMap res i (cs.take (m - i)) ++ cs.drop (m - i), false) := by
  intro cs
  induction cs with
  | nil => intro i _ h2; simp at h2
  | cons c rest ih =>
    intro i h1 h2
    by_cases him : i = m
    · subst him
      simp only [enrichLoop, hhi, if_true, Nat.sub_self, List.take_zero,
        List.drop_zero]
      rfl
    · have hf2i : flag (2 * i) = false := hlo _ (by omega)
      simp only [enrichLoop, hf2i, Bool.false_eq_true, if_false]
      obtain ⟨d, hd⟩ : ∃ d, m - i = d + 1 := ⟨m - i - 1, by omega⟩
      have hd' : m - (i + 1) = d := by omega
      have hrest : m - (i + 1) < rest.length := by
        simp at h2
        omega
      cases hres : res i with
      | ok e =>
        have hf2i1 : flag (2 * i + 1) = false := hlo _ (by omega)
        simp only [hf2i1, Bool.false_eq_true, if_false]
        rw [ih (i + 1) (by omega) hrest, hd, hd']
        simp [enrichMap, hres, enrichOne]
      | err msg =>
        rw [ih (i + 1) (by omega) hrest, hd, hd']
        simp [enrichMap, hres, enrichOne]

/-- C2: if the flag is never set, every pipeline step succeeds, and the
`enrichChunk` capability throws for exactly chunk `k`, the run still reaches
COMPLETE with no error banner; chunk `k` carries the `"Enrichment failed"`
sentinel with its other enrichment fields unset, and every other chunk has
all four enrichment fields populated. -/
theorem pipeline_partial_failure (data parsedText docSum failMsg : String)
    (res : Nat → EnrichOutcome) (now k : Nat)
    (hdata : data.length ≤ MAX_CHAR_LIMIT) (hpt : parsedText ≠ "")
    (hk : res k = .err failMsg)
    (hok : ∀ j, j ≠ k → ∃ e, res j = .ok e)
    (_hkn : k < (performChunking parsedText CHUNK_SIZE).length) :
    (handleInput (fun _ => false) (.ok parsedText) (.ok docSum) res now
        .IDLE [] data).stage = .COMPLETE ∧
    (handleInput (fun _ => false) (.ok parsedText) (.ok docSum) res now
        .IDLE [] data).error = none ∧
    (handleInput (fun _ => false) (.ok parsedText) (.ok docSum) res now
        .IDLE [] data).chunks.length =
      (performChunking parsedText CHUNK_SIZE).length ∧
    (∀ t, (performChunking parsedText CHUNK_SIZE)[k]? = some t →
      (handleInput (fun _ => false) (.ok parsedText) (.ok docSum) res now
          .IDLE [] data).chunks[k]? = some
        { id := "chk_" ++ toString now ++ "_" ++ toString k,
          originalText := t,
          enrichedContext := some "Enrichment failed",
          keywords := none, sentiment := none, entities := none,
          summary := none }) ∧
    (∀ j c, j ≠ k →
      (handleInput (fun _ => false) (.ok parsedText) (.ok docSum) res now
          .IDLE [] data).chunks[j]? = some c →
      c.enrichedContext.isSome ∧ c.keywords.isSome ∧
      c.sentiment.isSome ∧ c.entities.isSome) := by
  have hrun : handleInput (fun _ => false) (.ok parsedText) (.ok docSum) res now
      .IDLE [] data =
      { stage := .COMPLETE,
        chunks := enrichMap res 0 (mkChunks now (performChunking parsedText CHUNK_SIZE)),
        error := none } := by
    simp only [handleInput]
    rw [if_neg (by omega), if_neg hpt]
    rw [enrichLoop_of_flag_false _ res (fun _ => rfl) 0]
    simp
  rw [hrun]
  refine ⟨rfl, rfl, ?_, ?_, ?_⟩
  · simp only [mkChunks]
    rw [enrichMap_length, mkChunksFrom_length]
  · intro t ht
    simp only [mkChunks]
    rw [enrichMap_getElem?, mkChunksFrom_getElem?, ht]
    simp only [Nat.zero_add, Option.map_some']
    rw [hk]
    rfl
  · intro j c hj hc
    simp only [mkChunks] at hc
    rw [enrichMap_getElem?, mkChunksFrom_getElem?] at hc
    obtain ⟨e, he⟩ := hok j hj
    cases ht : (performChunking parsedText CHUNK_SIZE)[j]? with
    | none => rw [ht] at hc; simp at hc
    | some t =>
      rw [ht] at hc
      simp only [Nat.zero_add, Option.map_some', Option.some.injEq] at hc
      rw [he] at hc
      subst hc
      exact ⟨rfl, rfl, rfl, rfl⟩

set_option maxRecDepth 100000 in
/-- Witness for `pipeline_partial_failure`: a document of two 251-character
paragraphs is split into two chunks; the capability fails on chunk 0 and
succeeds on chunk 1. -/
theorem pipeline_partial_failure_witness :
    (handleInput (fun _ => false)
        (.ok (String.mk (List.replicate 251 'a') ++ "\n\n" ++
              String.mk (List.replicate 251 'b')))
        (.ok "summary")
        (fun j => if j = 0 then .err "boom"
                  else .ok ⟨some "ctx", some ["kw"], some "Positive",
                            some ⟨["P"], [], ["L"]⟩⟩)
        7 .IDLE [] "input").stage = .COMPLETE ∧
    (handleInput (fun _ => false)
        (.ok (String.mk (List.replicate 251 'a') ++ "\n\n" ++
              String.mk (List.replicate 251 'b')))
        (.ok "summary")
        (fun j => if j = 0 then .err "boom"
                  else .ok ⟨some "ctx", some ["kw"], some "Positive",
                            some ⟨["P"], [], ["L"]⟩⟩)
        7 .IDLE [] "input").chunks[0]? = some
      { id := "chk_7_0",
        originalText := String.mk (List.replicate 251 'a'),
        enrichedContext := some "Enrichment failed",
        keywords := none, sentiment := none, entities := none,
        summary := none } := by
  have h := pipeline_partial_failure "input"
    (String.mk (List.replicate 251 'a') ++ "\n\n" ++
      String.mk (List.replicate 251 'b'))
    "summary" "boom"
    (fun j => if j = 0 then .err "boom"
              else .ok ⟨some "ctx", some ["kw"], some "Positive",
                        some ⟨["P"], [], ["L"]⟩⟩)
    7 0
    (by decide) (by decide) rfl
    (fun j hj => ⟨⟨some "ctx", some ["kw"], some "Positive",
                   some ⟨["P"], [], ["L"]⟩⟩, by simp [hj]⟩)
    (by decide)
  exact ⟨h.1, h.2.2.2.1 (String.mk (List.replicate 251 'a')) (by decide)⟩

/-- C3: if the cancellation flag is first observed set at the top of
enrichment iteration `i + 1` (that is, after chunk `i`'s enrichment result
has been written and before chunk `i + 1`'s call begins), the run stays at
ENRICHING without any completion or error transition, chunks `0..i` keep
their enrichment outcomes, and chunks from `i + 1` on are left exactly as
the segmenter created them. -/
theorem pipeline_cancellation_window (data parsedText docSum : String)
    (res : Nat → EnrichOutcome) (flag : Nat → Bool) (now i : Nat)
    (hdata : data.length ≤ MAX_CHAR_LIMIT) (hpt : parsedText ≠ "")
    (hlo : ∀ t, t ≤ 2 * i + 4 → flag t = false)
    (hhi : flag (2 * i + 5) = true)
    (hin : i + 1 < (performChunking parsedText CHUNK_SIZE).length) :
    (handleInput flag (.ok parsedText) (.ok docSum) res now .IDLE [] data).stage
      = .ENRICHING ∧
    (handleInput flag (.ok parsedText) (.ok docSum) res now .IDLE [] data).stage
      ≠ .COMPLETE ∧
    (handleInput flag (.ok parsedText) (.ok docSum) res now .IDLE [] data).stage
      ≠ .ERROR ∧
    (handleInput flag (.ok parsedText) (.ok docSum) res now .IDLE [] data).error
      = none ∧
    (handleInput flag (.ok parsedText) (.ok docSum) res now .IDLE [] data).chunks.length
      = (performChunking parsedText CHUNK_SIZE).length ∧
    (∀ j c0, j ≤ i →
      (mkChunks now (performChunking parsedText CHUNK_SIZE))[j]? = some c0 →
      (handleInput flag (.ok parsedText) (.ok docSum) res now .IDLE [] data).chunks[j]?
        = some (enrichOne c0 (res j))) ∧
    (∀ j, i < j →
      (handleInput flag (.ok parsedText) (.ok docSum) res now .IDLE [] data).chunks[j]?
        = (mkChunks now (performChunking parsedText CHUNK_SIZE))[j]?) := by
  have hn := mkChunksFrom_length now 0 (performChunking parsedText CHUNK_SIZE)
  have hlen : i + 1 < (mkChunks now (performChunking parsedText CHUNK_SIZE)).length := by
    rw [mkChunks, hn]; exact hin
  have hloop := enrichLoop_stops (fun t => flag (t + 3)) res (i + 1)
    (fun t ht => hlo (t + 3) (by omega)) (by
      show flag (2 * (i + 1) + 3) = true
      have harith : 2 * (i + 1) + 3 = 2 * i + 5 := by omega
      rw [harith]; exact hhi)
    (mkChunks now (performChunking parsedText CHUNK_SIZE)) 0 (by omega)
    (by omega)
  simp only [Nat.sub_zero] at hloop
  have hrun : handleInput flag (.ok parsedText) (.ok docSum) res now .IDLE [] data =
      { stage := .ENRICHING,
        chunks :=
          enrichMap res 0
            ((mkChunks now (performChunking parsedText CHUNK_SIZE)).take (i + 1)) ++
          (mkChunks now (performChunking parsedText CHUNK_SIZE)).drop (i + 1),
        error := none } := by
    simp only [handleInput]
    rw [if_neg (by omega), if_neg hpt]
    have h0 : flag 0 = false := hlo 0 (by omega)
    have h1 : flag 1 = false := hlo 1 (by omega)
    have h2 : flag 2 = false := hlo 2 (by omega)
    simp only [h0, h1, h2, Bool.false_eq_true, if_false]
    rw [hloop]
    simp
  rw [hrun]
  have htk : ((mkChunks now (performChunking parsedText CHUNK_SIZE)).take (i + 1)).length
      = i + 1 := by
    rw [List.length_take]
    omega
  have hmaplen : (enrichMap res 0
      ((mkChunks now (performChunking parsedText CHUNK_SIZE)).take (i + 1))).length
      = i + 1 := by
    rw [enrichMap_length]; exact htk
  refine ⟨rfl, fun h => ProcessingStage.noConfusion h,
    fun h => ProcessingStage.noConfusion h, rfl, ?_, ?_, ?_⟩
  · simp only [List.length_append, hmaplen, List.length_drop]
    simp only [mkChunks] at *
    omega
  · intro j c0 hj hc0
    rw [List.getElem?_append_left (by rw [hmaplen]; omega)]
    rw [enrichMap_getElem?, List.getElem?_take, if_pos (by omega : j < i + 1)]
    rw [hc0]
    simp
  · intro j hj
    rw [List.getElem?_append_right (by rw [hmaplen]; omega)]
    rw [hmaplen, List.getElem?_drop]
    have harith : i + 1 + (j - (i + 1)) = j := by omega
    rw [harith]

set_option maxRecDepth 100000 in
/-- Witness for `pipeline_cancellation_window`: two chunks, the flag set
between chunk 0's enrichment and chunk 1's iteration; chunk 0 is enriched,
chunk 1 stays fresh, and the stage remains ENRICHING. -/
theorem pipeline_cancellation_window_witness :
    (handleInput (fun t => decide (5 ≤ t))
        (.ok (String.mk (List.replicate 251 'a') ++ "\n\n" ++
              String.mk (List.replicate 251 'b')))
        (.ok "summary")
        (fun _ => .ok ⟨some "ctx", none, none, none⟩)
        7 .IDLE [] "input").stage = .ENRICHING ∧
    (handleInput (fun t => decide (5 ≤ t))
        (.ok (String.mk (List.replicate 251 'a') ++ "\n\n" ++
              String.mk (List.replicate 251 'b')))
        (.ok "summary")
        (fun _ => .ok ⟨some "ctx", none, none, none⟩)
        7 .IDLE [] "input").chunks[1]? =
      (mkChunks 7 (performChunking
        (String.mk (List.replicate 251 'a') ++ "\n\n" ++
         String.mk (List.replicate 251 'b')) CHUNK_SIZE))[1]? := by
  have h := pipeline_cancellation_window "input"
    (String.mk (List.replicate 251 'a') ++ "\n\n" ++
      String.mk (List.replicate 251 'b'))
    "summary"
    (fun _ => .ok ⟨some "ctx", none, none, none⟩)
    (fun t => decide (5 ≤ t)) 7 0
    (by decide) (by decide)
    (fun t ht => by
      simp only [decide_eq_false_iff_not]
      omega)
    (by decide)
    (by decide)
  exact ⟨h.1, h.2.2.2.2.2.2 1 (by omega)⟩

/-! ### Frame lemmas and summarization -/

theorem enrichLoop_map_core (flag : Nat → Bool) (res : Nat → EnrichOutcome) :
    ∀ (i : Nat) (cs : List Chunk),
      ((enrichLoop flag res i cs).1).map chunkCore = cs.map chunkCore := by
  intro i cs
  induction cs generalizing i with
  | nil => rfl
  | cons c rest ih =>
    simp only [enrichLoop]
    by_cases h0 : flag (2 * i)
    · simp [h0]
    · simp only [h0, Bool.false_eq_true, if_false]
      cases hres : res i with
      | ok e =>
        by_cases h1 : flag (2 * i + 1)
        · simp [h1]
        · simp only [h1, Bool.false_eq_true, if_false, List.map_cons]
          rw [ih (i + 1)]
          rfl
      | err msg =>
        simp only [List.map_cons]
        rw [ih (i + 1)]
        rfl

theorem setSummaryAt_map_core :
    ∀ (cs : List Chunk) (n : Nat) (s : String),
      (setSummaryAt cs n s).map chunkCore = cs.map chunkCore := by
  intro cs
  induction cs with
  | nil => intro n s; rfl
  | cons c rest ih =>
    intro n s
    cases n with
    | zero => simp [setSummaryAt]; rfl
    | succ n' => simp only [setSummaryAt, List.map_cons, ih]

theorem setSummaryAt_getElem?_ne :
    ∀ (cs : List Chunk) (n : Nat) (s : String) (j : Nat), j ≠ n →
      (setSummaryAt cs n s)[j]? = cs[j]? := by
  intro cs
  induction cs with
  | nil => intro n s j _; rfl
  | cons c rest ih =>
    intro n s j hj
    cases n with
    | zero =>
      cases j with
      | zero => exact absurd rfl hj
      | succ j' => simp [setSummaryAt]
    | succ n' =>
      cases j with
      | zero => simp [setSummaryAt]
      | succ j' =>
        simp only [setSummaryAt, List.getElem?_cons_succ]
        exact ih n' s j' (by omega)

theorem summarizeOne_map_core (summ : String → Except String String)
    (cs : List Chunk) (cid : String) :
    ((summarizeOne summ cs cid).1).map chunkCore = cs.map chunkCore := by
  cases hfind : jsFindIndex (fun c => c.id == cid) cs with
  | none => simp [summarizeOne, hfind]
  | some idx =>
    cases hget : cs[idx]? with
    | none => simp [summarizeOne, hfind, hget]
    | some c =>
      cases hsumm : summ c.originalText with
      | ok s => simp [summarizeOne, hfind, hget, hsumm, setSummaryAt_map_core]
      | error msg => simp [summarizeOne, hfind, hget, hsumm]

theorem summarizeOne_getElem?_ne (summ : String → Except String String)
    (cs : List Chunk) (cid : String) (j : Nat)
    (hne : jsFindIndex (fun c => c.id == cid) cs ≠ some j) :
    ((summarizeOne summ cs cid).1)[j]? = cs[j]? := by
  cases hfind : jsFindIndex (fun c => c.id == cid) cs with
  | none => simp [summarizeOne, hfind]
  | some idx =>
    have hj : j ≠ idx := by
      intro h
      rw [h] at hne
      exact hne hfind
    cases hget : cs[idx]? with
    | none => simp [summarizeOne, hfind, hget]
    | some c =>
      cases hsumm : summ c.originalText with
      | ok s =>
        simp only [summarizeOne, hfind, hget, hsumm]
        exact setSummaryAt_getElem?_ne cs idx s j hj
      | error msg => simp [summarizeOne, hfind, hget, hsumm]

theorem summarizeAllLoop_map_core (flag : Nat → Bool)
    (summ : String → Except String String) :
    ∀ (ids : List String) (t : Nat) (cs : List Chunk),
      ((summarizeAllLoop flag summ ids t cs).1).map chunkCore = cs.map chunkCore := by
  intro ids
  induction ids with
  | nil => intro t cs; rfl
  | cons cid rest ih =>
    intro t cs
    simp only [summarizeAllLoop]
    by_cases hf : flag t
    · simp [hf]
    · simp only [hf, Bool.false_eq_true, if_false]
      rw [ih (t + 1)]
      exact summarizeOne_map_core summ cs cid

theorem handleSummarizeAll_map_core (flag : Nat → Bool)
    (summ : String → Except String String) (cs : List Chunk) :
    ((handleSummarizeAll flag summ cs).1).map chunkCore = cs.map chunkCore := by
  simp only [handleSummarizeAll]
  exact summarizeAllLoop_map_core flag summ _ 0 cs

/-- C9: the per-chunk enrichment loop and per-chunk summarization preserve
each chunk's `id` and `originalText`, never delete a chunk, keep the chunk
count, and keep document order (the `chunkCore` projection of the list is
unchanged); moreover `handleSummarizeChunk` leaves every chunk other than
the targeted one entirely untouched. -/
theorem chunk_frame_preservation :
    (∀ (flag : Nat → Bool) (res : Nat → EnrichOutcome) (i : Nat) (cs : List Chunk),
      ((enrichLoop flag res i cs).1).map chunkCore = cs.map chunkCore) ∧
    (∀ (summ : String → Except String String) (cs : List Chunk) (cid : String),
      ((summarizeOne summ cs cid).1).map chunkCore = cs.map chunkCore) ∧
    (∀ (flag : Nat → Bool) (summ : String → Except String String) (cs : List Chunk),
      ((handleSummarizeAll flag summ cs).1).map chunkCore = cs.map chunkCore) ∧
    (∀ (summ : String → Except String String) (cs : List Chunk) (cid : String) (j : Nat),
      jsFindIndex (fun c => c.id == cid) cs ≠ some j →
      ((summarizeOne summ cs cid).1)[j]? = cs[j]?) :=
  ⟨fun flag res i cs => enrichLoop_map_core flag res i cs,
   fun summ cs cid => summarizeOne_map_core summ cs cid,
   fun flag summ cs => handleSummarizeAll_map_core flag summ cs,
   fun summ cs cid j hne => summarizeOne_getElem?_ne summ cs cid j hne⟩

/-- Witness for `chunk_frame_preservation` at concrete inputs. -/
theorem chunk_frame_preservation_witness :
    ((summarizeOne (fun _ => .ok "S")
        [{ id := "c1", originalText := "t", enrichedContext := none,
           keywords := none, sentiment := none, entities := none,
           summary := none }] "c1").1)[5]? =
      ([{ id := "c1", originalText := "t", enrichedContext := none,
          keywords := none, sentiment := none, entities := none,
          summary := none }] : List Chunk)[5]? ∧
    ((enrichLoop (fun _ => false) (fun _ => .err "x") 0
        [{ id := "c1", originalText := "t", enrichedContext := none,
           keywords := none, sentiment := none, entities := none,
           summary := none }]).1).map chunkCore =
      ([{ id := "c1", originalText := "t", enrichedContext := none,
          keywords := none, sentiment := none, entities := none,
          summary := none }] : List Chunk).map chunkCore :=
  ⟨chunk_frame_preservation.2.2.2 _ _ _ 5 (by decide),
   chunk_frame_preservation.1 _ _ _ _⟩

theorem map_id_of_map_core {xs ys : List Chunk}
    (h : xs.map chunkCore = ys.map chunkCore) :
    xs.map (fun c => c.id) = ys.map (fun c => c.id) := by
  have h2 := congrArg (List.map Prod.fst) h
  simpa [List.map_map, chunkCore, Function.comp] using h2

theorem jsFindIndex_of_mem :
    ∀ (cs : List Chunk) (cid : String), cid ∈ cs.map (fun c => c.id) →
      ∃ idx c, jsFindIndex (fun c => c.id == cid) cs = some idx ∧
        cs[idx]? = some c := by
  intro cs
  induction cs with
  | nil => intro cid h; simp at h
  | cons c rest ih =>
    intro cid h
    by_cases hc : c.id == cid
    · exact ⟨0, c, by simp [jsFindIndex, hc], by simp⟩
    · have hmem : cid ∈ rest.map (fun c => c.id) := by
        simp only [List.map_cons, List.mem_cons] at h
        rcases h with h1 | h2
        · exact absurd (by simp [h1]) hc
        · exact h2
      obtain ⟨idx, d, hfind, hget⟩ := ih cid hmem
      refine ⟨idx + 1, d, ?_, by simpa using hget⟩
      simp [jsFindIndex, hc, hfind]

theorem summarizeOne_count_of_mem (summ : String → Except String String)
    (cs : List Chunk) (cid : String) (h : cid ∈ cs.map (fun c => c.id)) :
    (summarizeOne summ cs cid).2 = 1 := by
  obtain ⟨idx, c, hfind, hget⟩ := jsFindIndex_of_mem cs cid h
  simp only [summarizeOne, hfind, hget]
  cases summ c.originalText <;> rfl

theorem summarizeAllLoop_count (flag : Nat → Bool)
    (summ : String → Except String String) (hf : ∀ t, flag t = false) :
    ∀ (ids : List String) (t : Nat) (cs : List Chunk),
      (∀ cid ∈ ids, cid ∈ cs.map (fun c => c.id)) →
      (summarizeAllLoop flag summ ids t cs).2 = ids.length := by
  intro ids
  induction ids with
  | nil => intro t cs _; rfl
  | cons cid rest ih =>
    intro t cs hmem
    simp only [summarizeAllLoop, hf, Bool.false_eq_true, if_false]
    have h1 : (summarizeOne summ cs cid).2 = 1 :=
      summarizeOne_count_of_mem summ cs cid (hmem cid (List.mem_cons_self _ _))
    have hids : ((summarizeOne summ cs cid).1).map (fun c => c.id) =
        cs.map (fun c => c.id) :=
      map_id_of_map_core (summarizeOne_map_core summ cs cid)
    have h2 := ih (t + 1) (summarizeOne summ cs cid).1
      (fun cid' hc => by rw [hids]; exact hmem cid' (List.mem_cons_of_mem _ hc))
    simp [h1, h2]
    omega

/-- C4 (amended): `handleSummarizeAll` with the cancellation flag unset
invokes the per-chunk summarization capability exactly once per chunk whose
`summary` is JS-falsy (absent or the empty string); in particular, when every
chunk carries a non-empty summary it performs zero capability invocations and
returns the chunk list unchanged. -/
theorem summarizeAll_skips_summarized :
    (∀ (summ : String → Except String String) (chunks : List Chunk),
      (∀ c ∈ chunks, ∃ s, c.summary = some s ∧ s ≠ "") →
      handleSummarizeAll (fun _ => false) summ chunks = (chunks, 0)) ∧
    (∀ (summ : String → Except String String) (chunks : List Chunk),
      (handleSummarizeAll (fun _ => false) summ chunks).2 =
        (chunks.filter (fun c => jsFalsy c.summary)).length) := by
  constructor
  · intro summ chunks hall
    have hfilter : chunks.filter (fun c => jsFalsy c.summary) = [] := by
      rw [List.filter_eq_nil_iff]
      intro c hc
      obtain ⟨s, hs, hne⟩ := hall c hc
      simp [jsFalsy, hs, hne]
    simp only [handleSummarizeAll, hfilter, List.map_nil]
    rfl
  · intro summ chunks
    simp only [handleSummarizeAll]
    rw [summarizeAllLoop_count (fun _ => false) summ (fun _ => rfl) _ 0 chunks]
    · exact List.length_map _ _
    · intro cid hcid
      simp only [List.mem_map] at hcid ⊢
      obtain ⟨c, hc, hcid'⟩ := hcid
      exact ⟨c, List.mem_of_mem_filter hc, hcid'⟩

/-- Witness for `summarizeAll_skips_summarized`: one chunk with a non-empty
summary is skipped entirely. -/
theorem summarizeAll_skips_summarized_witness :
    handleSummarizeAll (fun _ => false) (fun _ => .ok "S")
      [{ id := "c1", originalText := "t", enrichedContext := none,
         keywords := none, sentiment := none, entities := none,
         summary := some "done" }] =
      ([{ id := "c1", originalText := "t", enrichedContext := none,
          keywords := none, sentiment := none, entities := none,
          summary := some "done" }], 0) := by
  refine summarizeAll_skips_summarized.1 (fun _ => .ok "S") _ ?_
  intro c hc
  rw [List.mem_singleton] at hc
  subst hc
  exact ⟨"done", rfl, by decide⟩

/-- C4 counterexample: a chunk whose `summary` field is present but equal to
the empty string `""` is JS-falsy, so `handleSummarizeAll` re-invokes the
capability once and overwrites the chunk — the claim that a chunk list in
which every chunk already has a `summary` field triggers zero invocations
and is left unchanged is false as stated. -/
theorem summarizeAll_idempotence_counterexample :
    (∀ c ∈ ([{ id := "c1", originalText := "t", enrichedContext := none,
               keywords := none, sentiment := none, entities := none,
               summary := some "" }] : List Chunk), c.summary.isSome) ∧
    (handleSummarizeAll (fun _ => false) (fun _ => .ok "S")
      [{ id := "c1", originalText := "t", enrichedContext := none,
         keywords := none, sentiment := none, entities := none,
         summary := some "" }]).2 = 1 ∧
    (handleSummarizeAll (fun _ => false) (fun _ => .ok "S")
      [{ id := "c1", originalText := "t", enrichedContext := none,
         keywords := none, sentiment := none, entities := none,
         summary := some "" }]).1 ≠
      [{ id := "c1", originalText := "t", enrichedContext := none,
         keywords := none, sentiment := none, entities := none,
         summary := some "" }] := by
  decide

/-! ### Graph build and filtering lemmas -/

theorem any_comp_map {α : Type} (f : α → String) (p : String → Bool) :
    ∀ (xs : List α), (xs.map f).any p = xs.any (fun x => p (f x)) := by
  intro xs
  induction xs with
  | nil => rfl
  | cons a l ih => simp [ih]

theorem contains_eq_true_iff (l : List String) (s : String) :
    l.contains s = true ↔ s ∈ l := by
  simp [List.contains, List.elem_iff]

theorem mem_map_id_iff (xs : List BNode) (s : String) :
    s ∈ xs.map (fun n => n.id) ↔ ∃ n ∈ xs, n.id = s := by
  simp [List.mem_map]

theorem updateFirst_map_id (p : BNode → Bool) (f : BNode → BNode)
    (hf : ∀ n, (f n).id = n.id) :
    ∀ (l : List BNode),
      (updateFirst p f l).map (fun n => n.id) = l.map (fun n => n.id) := by
  intro l
  induction l with
  | nil => rfl
  | cons a rest ih =>
    simp only [updateFirst]
    by_cases hp : p a
    · simp [hp, hf]
    · simp [hp, ih]

theorem updateLast_map_id (p : BNode → Bool) (f : BNode → BNode)
    (hf : ∀ n, (f n).id = n.id) (l : List BNode) :
    (updateLast p f l).map (fun n => n.id) = l.map (fun n => n.id) := by
  simp only [updateLast]
  rw [List.map_reverse, updateFirst_map_id p f hf, List.map_reverse,
    List.reverse_reverse]

theorem addNeighbor_map_id (a b : String) (ns : List BNode) :
    (addNeighbor a b ns).map (fun n => n.id) = ns.map (fun n => n.id) := by
  simp only [addNeighbor]
  apply updateLast_map_id
  intro n
  rfl

theorem buildStep_map_id (st : List BNode × List BLink) (e : GraphEdge) :
    ((buildStep st e).1).map (fun n => n.id) = (st.1).map (fun n => n.id) := by
  simp only [buildStep]
  by_cases hcond : st.1.any (fun n => n.id == e.source) &&
      st.1.any (fun n => n.id == e.target)
  · simp [hcond, addNeighbor_map_id]
  · simp [hcond]

theorem foldl_buildStep_map_id :
    ∀ (edges : List GraphEdge) (st : List BNode × List BLink),
      ((List.foldl buildStep st edges).1).map (fun n => n.id) =
        (st.1).map (fun n => n.id) := by
  intro edges
  induction edges with
  | nil => intro st; rfl
  | cons e rest ih =>
    intro st
    rw [List.foldl_cons, ih, buildStep_map_id]

theorem initNodes_map_id (ns : List GraphNode) :
    (initNodes ns).map (fun n => n.id) = ns.map (fun n => n.id) := by
  simp [initNodes, List.map_map, Function.comp]

theorem buildGraph_map_id (g : KnowledgeGraph) :
    ((buildGraph g).1).map (fun n => n.id) = g.nodes.map (fun n => n.id) := by
  rw [buildGraph, foldl_buildStep_map_id, initNodes_map_id]

theorem any_id_congr {st : List BNode} {ns : List GraphNode}
    (h : st.map (fun n => n.id) = ns.map (fun n => n.id)) (s : String) :
    st.any (fun n => n.id == s) = ns.any (fun n => n.id == s) := by
  have h1 := any_comp_map (fun n : BNode => n.id) (fun t => t == s) st
  have h2 := any_comp_map (fun n : GraphNode => n.id) (fun t => t == s) ns
  rw [← h1, ← h2, h]

theorem foldl_buildStep_links (ns : List GraphNode) :
    ∀ (edges : List GraphEdge) (st : List BNode × List BLink),
      (st.1).map (fun n => n.id) = ns.map (fun n => n.id) →
      (List.foldl buildStep st edges).2 =
        st.2 ++ (edges.filter (fun e =>
          ns.any (fun n => n.id == e.source) &&
          ns.any (fun n => n.id == e.target))).map
          (fun e => { source := e.source, target := e.target,
                      relation := e.relation }) := by
  intro edges
  induction edges with
  | nil => intro st _; simp
  | cons e rest ih =>
    intro st hst
    rw [List.foldl_cons]
    have hsrc := any_id_congr hst e.source
    have htgt := any_id_congr hst e.target
    cases hcond : (ns.any (fun n => n.id == e.source) &&
        ns.any (fun n => n.id == e.target)) with
    | true =>
      have hcond' : (st.1.any (fun n => n.id == e.source) &&
          st.1.any (fun n => n.id == e.target)) = true := by
        rw [hsrc, htgt]; exact hcond
      have hstep : buildStep st e =
          (addNeighbor e.target e.source (addNeighbor e.source e.target st.1),
           st.2 ++ [{ source := e.source, target := e.target,
                      relation := e.relation }]) := by
        simp [buildStep, hcond']
      rw [hstep, ih _ (by simp [addNeighbor_map_id, hst])]
      simp [List.filter_cons, hcond]
    | false =>
      have hcond' : (st.1.any (fun n => n.id == e.source) &&
          st.1.any (fun n => n.id == e.target)) = false := by
        rw [hsrc, htgt]; exact hcond
      have hstep : buildStep st e = st := by
        simp [buildStep, hcond']
      rw [hstep, ih _ hst]
      simp [List.filter_cons, hcond]

theorem buildGraph_links (g : KnowledgeGraph) :
    (buildGraph g).2 = (g.edges.filter (fun e =>
      g.nodes.any (fun n => n.id == e.source) &&
      g.nodes.any (fun n => n.id == e.target))).map
      (fun e => { source := e.source, target := e.target,
                  relation := e.relation }) := by
  rw [buildGraph, foldl_buildStep_links g.nodes g.edges _ (initNodes_map_id g.nodes)]
  simp

/-- Every link the builder keeps has both endpoint ids present among the
built nodes. -/
theorem buildGraph_links_resolve (g : KnowledgeGraph) (l : BLink)
    (hl : l ∈ (buildGraph g).2) :
    (∃ n ∈ (buildGraph g).1, n.id = l.source) ∧
    (∃ n ∈ (buildGraph g).1, n.id = l.target) := by
  rw [buildGraph_links] at hl
  rw [List.mem_map] at hl
  obtain ⟨e, he, hle⟩ := hl
  rw [List.mem_filter] at he
  obtain ⟨_, hcond⟩ := he
  rw [Bool.and_eq_true] at hcond
  obtain ⟨hsrc, htgt⟩ := hcond
  rw [List.any_eq_true] at hsrc htgt
  obtain ⟨n1, hn1, hn1e⟩ := hsrc
  obtain ⟨n2, hn2, hn2e⟩ := htgt
  rw [beq_iff_eq] at hn1e hn2e
  have hids := buildGraph_map_id g
  constructor
  · have : l.source ∈ g.nodes.map (fun n => n.id) := by
      rw [List.mem_map]
      exact ⟨n1, hn1, by rw [hn1e, ← hle]⟩
    rw [← hids, mem_map_id_iff] at this
    exact this
  · have : l.target ∈ g.nodes.map (fun n => n.id) := by
      rw [List.mem_map]
      exact ⟨n2, hn2, by rw [hn2e, ← hle]⟩
    rw [← hids, mem_map_id_iff] at this
    exact this

/-- C7: the builder drops exactly the edges whose `source` or `target` id
does not resolve against the node-id index, and — under no filter, under
focus-isolation, and under leaf-pruning — every link of the visible view
has both endpoint ids present among the visible nodes. -/
theorem edge_resolution_invariant :
    (∀ (g : KnowledgeGraph),
      (buildGraph g).2 = (g.edges.filter (fun e =>
        g.nodes.any (fun n => n.id == e.source) &&
        g.nodes.any (fun n => n.id == e.target))).map
        (fun e => { source := e.source, target := e.target,
                    relation := e.relation })) ∧
    (∀ (g : KnowledgeGraph) (focus : Option String) (prune : Bool) (l : BLink),
      l ∈ (visibleParts (buildGraph g).1 (buildGraph g).2 focus prune).2 →
      l.source ∈ ((visibleParts (buildGraph g).1 (buildGraph g).2 focus prune).1).map
        (fun n => n.id) ∧
      l.target ∈ ((visibleParts (buildGraph g).1 (buildGraph g).2 focus prune).1).map
        (fun n => n.id)) := by
  constructor
  · exact buildGraph_links
  · intro g focus prune l hl
    match focus with
    | none =>
      by_cases hp : prune
      · simp only [visibleParts, hp, if_true] at hl ⊢
        rw [List.mem_filter, Bool.and_eq_true] at hl
        obtain ⟨_, hsrc, htgt⟩ := hl
        rw [contains_eq_true_iff] at hsrc htgt
        exact ⟨hsrc, htgt⟩
      · simp only [visibleParts, hp, Bool.false_eq_true, if_false] at hl ⊢
        have hres := buildGraph_links_resolve g l hl
        rw [mem_map_id_iff, mem_map_id_iff]
        exact hres
    | some fid =>
      cases hfind : ((buildGraph g).1).reverse.find? (fun n => n.id == fid) with
      | none =>
        simp only [visibleParts, hfind] at hl ⊢
        have hres := buildGraph_links_resolve g l hl
        rw [mem_map_id_iff, mem_map_id_iff]
        exact hres
      | some fnode =>
        simp only [visibleParts, hfind] at hl ⊢
        rw [List.mem_filter, Bool.and_eq_true] at hl
        obtain ⟨hlL, hsrc, htgt⟩ := hl
        have hres := buildGraph_links_resolve g l hlL
        obtain ⟨⟨n1, hn1, hn1id⟩, ⟨n2, hn2, hn2id⟩⟩ := hres
        constructor
        · rw [List.mem_map]
          refine ⟨n1, ?_, hn1id⟩
          rw [List.mem_filter]
          exact ⟨hn1, by rw [hn1id]; exact hsrc⟩
        · rw [List.mem_map]
          refine ⟨n2, ?_, hn2id⟩
          rw [List.mem_filter]
          exact ⟨hn2, by rw [hn2id]; exact htgt⟩

/-- Witness for `edge_resolution_invariant` at a concrete graph. -/
theorem edge_resolution_invariant_witness :
    (buildGraph exampleGraph).2 = (exampleGraph.edges.filter (fun e =>
      exampleGraph.nodes.any (fun n => n.id == e.source) &&
      exampleGraph.nodes.any (fun n => n.id == e.target))).map
      (fun e => { source := e.source, target := e.target,
                  relation := e.relation }) ∧
    ("A" ∈ ((visibleParts (buildGraph exampleGraph).1 (buildGraph exampleGraph).2
        none false).1).map (fun n => n.id) ∧
     "B" ∈ ((visibleParts (buildGraph exampleGraph).1 (buildGraph exampleGraph).2
        none false).1).map (fun n => n.id)) :=
  ⟨edge_resolution_invariant.1 exampleGraph,
   edge_resolution_invariant.2 exampleGraph none false
     { source := "A", target := "B", relation := "knows" } (by decide)⟩

/-- C5: with a focus node present in the graph, the visible node set is
exactly the nodes whose id is the focus id or a neighbor id of the focus
node, and the visible links are exactly those with both endpoint ids in that
set — entirely independent of the leaf-pruning toggle; and with the focus
cleared, visibility is exactly the leaf-pruning view determined by the
pruning toggle (the spec-side `specLeafPruneView`). -/
theorem focus_isolation_overrides_pruning (g : KnowledgeGraph) (fid : String)
    (prune : Bool) (hmem : ∃ n ∈ g.nodes, n.id = fid) :
    ∃ fnode,
      ((buildGraph g).1).reverse.find? (fun n => n.id == fid) = some fnode ∧
      (∀ p1 p2 : Bool,
        visibleParts (buildGraph g).1 (buildGraph g).2 (some fid) p1 =
        visibleParts (buildGraph g).1 (buildGraph g).2 (some fid) p2) ∧
      (∀ n, n ∈ (visibleParts (buildGraph g).1 (buildGraph g).2 (some fid) prune).1 ↔
        n ∈ (buildGraph g).1 ∧ (n.id = fid ∨ n.id ∈ fnode.neighbors)) ∧
      (∀ l, l ∈ (visibleParts (buildGraph g).1 (buildGraph g).2 (some fid) prune).2 ↔
        l ∈ (buildGraph g).2 ∧ (l.source = fid ∨ l.source ∈ fnode.neighbors) ∧
          (l.target = fid ∨ l.target ∈ fnode.neighbors)) ∧
      (∀ pr : Bool,
        visibleParts (buildGraph g).1 (buildGraph g).2 none pr =
        specLeafPruneView (buildGraph g).1 (buildGraph g).2 pr) := by
  have hfid : ∃ x ∈ ((buildGraph g).1).reverse, (x.id == fid) = true := by
    obtain ⟨n0, hn0, hn0id⟩ := hmem
    have hmem2 : fid ∈ ((buildGraph g).1).map (fun n => n.id) := by
      rw [buildGraph_map_id, List.mem_map]
      exact ⟨n0, hn0, hn0id⟩
    rw [mem_map_id_iff] at hmem2
    obtain ⟨b, hb, hbid⟩ := hmem2
    exact ⟨b, List.mem_reverse.mpr hb, by rw [beq_iff_eq]; exact hbid⟩
  have hsome : (((buildGraph g).1).reverse.find? (fun n => n.id == fid)).isSome := by
    rw [List.find?_isSome]
    exact hfid
  obtain ⟨fnode, hfind⟩ := Option.isSome_iff_exists.mp hsome
  refine ⟨fnode, hfind, fun p1 p2 => rfl, ?_, ?_, fun pr => rfl⟩
  · intro n
    simp only [visibleParts, hfind]
    rw [List.mem_filter]
    constructor
    · rintro ⟨hn, hc⟩
      rw [contains_eq_true_iff, List.mem_cons] at hc
      exact ⟨hn, hc⟩
    · rintro ⟨hn, hc⟩
      refine ⟨hn, ?_⟩
      rw [contains_eq_true_iff, List.mem_cons]
      exact hc
  · intro l
    simp only [visibleParts, hfind]
    rw [List.mem_filter, Bool.and_eq_true]
    constructor
    · rintro ⟨hl, hs, ht⟩
      rw [contains_eq_true_iff, List.mem_cons] at hs ht
      exact ⟨hl, hs, ht⟩
    · rintro ⟨hl, hs, ht⟩
      refine ⟨hl, ?_, ?_⟩
      · rw [contains_eq_true_iff, List.mem_cons]
        exact hs
      · rw [contains_eq_true_iff, List.mem_cons]
        exact ht

/-- Witness for `focus_isolation_overrides_pruning`: focusing node "B" of the
example graph while leaf-pruning is on. -/
theorem focus_isolation_overrides_pruning_witness :
    ∃ fnode,
      ((buildGraph exampleGraph).1).reverse.find? (fun n => n.id == "B") = some fnode ∧
      (∀ p1 p2 : Bool,
        visibleParts (buildGraph exampleGraph).1 (buildGraph exampleGraph).2 (some "B") p1 =
        visibleParts (buildGraph exampleGraph).1 (buildGraph exampleGraph).2 (some "B") p2) ∧
      (∀ n, n ∈ (visibleParts (buildGraph exampleGraph).1 (buildGraph exampleGraph).2
          (some "B") true).1 ↔
        n ∈ (buildGraph exampleGraph).1 ∧ (n.id = "B" ∨ n.id ∈ fnode.neighbors)) ∧
      (∀ l, l ∈ (visibleParts (buildGraph exampleGraph).1 (buildGraph exampleGraph).2
          (some "B") true).2 ↔
        l ∈ (buildGraph exampleGraph).2 ∧ (l.source = "B" ∨ l.source ∈ fnode.neighbors) ∧
          (l.target = "B" ∨ l.target ∈ fnode.neighbors)) ∧
      (∀ pr : Bool,
        visibleParts (buildGraph exampleGraph).1 (buildGraph exampleGraph).2 none pr =
        specLeafPruneView (buildGraph exampleGraph).1 (buildGraph exampleGraph).2 pr) :=
  focus_isolation_overrides_pruning exampleGraph "B" true (by decide)

/-! ### Analytics lemmas (density, average degree, top nodes) -/

theorem insertDesc_perm (key : BNode → ℚ) (a : BNode) :
    ∀ (l : List BNode), (insertDesc key a l).Perm (a :: l) := by
  intro l
  induction l with
  | nil => exact List.Perm.refl _
  | cons b rest ih =>
    simp only [insertDesc]
    by_cases h : key a < key b
    · rw [if_pos h]
      exact (ih.cons b).trans (List.Perm.swap a b rest)
    · rw [if_neg h]

theorem stableSortDesc_perm (key : BNode → ℚ) :
    ∀ (l : List BNode), (stableSortDesc key l).Perm l := by
  intro l
  induction l with
  | nil => exact List.Perm.refl _
  | cons a rest ih =>
    simp only [stableSortDesc]
    exact (insertDesc_perm key a _).trans (ih.cons a)

theorem insertDesc_pairwise (key : BNode → ℚ) (a : BNode) :
    ∀ (l : List BNode), l.Pairwise (fun x y => key y ≤ key x) →
      (insertDesc key a l).Pairwise (fun x y => key y ≤ key x) := by
  intro l
  induction l with
  | nil => intro _; simp [insertDesc]
  | cons b rest ih =>
    intro h
    rw [List.pairwise_cons] at h
    obtain ⟨hb, hrest⟩ := h
    simp only [insertDesc]
    by_cases hab : key a < key b
    · rw [if_pos hab]
      rw [List.pairwise_cons]
      refine ⟨?_, ih hrest⟩
      intro x hx
      rw [(insertDesc_perm key a rest).mem_iff, List.mem_cons] at hx
      rcases hx with rfl | hx
      · exact le_of_lt hab
      · exact hb x hx
    · rw [if_neg hab]
      rw [List.pairwise_cons]
      refine ⟨?_, ?_⟩
      · intro x hx
        rw [List.mem_cons] at hx
        rcases hx with rfl | hx
        · exact le_of_not_lt hab
        · exact le_trans (hb x hx) (le_of_not_lt hab)
      · rw [List.pairwise_cons]
        exact ⟨hb, hrest⟩

theorem stableSortDesc_pairwise (key : BNode → ℚ) :
    ∀ (l : List BNode),
      (stableSortDesc key l).Pairwise (fun x y => key y ≤ key x) := by
  intro l
  induction l with
  | nil => simp [stableSortDesc]
  | cons a rest ih =>
    simp only [stableSortDesc]
    exact insertDesc_pairwise key a _ ih

/-- C6: the density is `2E / (N(N-1))` on the visible subgraph and 0 when
`N ≤ 1`; the average degree is `2E/N` and 0 when `N = 0`; `topNodes` is the
visible node list stably sorted by descending visual weight and truncated to
five entries; and on the unfiltered 4-node example graph with edges
(A,B),(B,C),(C,D) the density is 1/2, the average degree 3/2, and the top
nodes are B, C, A, D (the B/C and A/D ties broken by input order). -/
theorem graph_metrics_spec :
    (∀ (vn : List BNode) (vl : List BLink), vn.length ≤ 1 → densityOf vn vl = 0) ∧
    (∀ (vn : List BNode) (vl : List BLink), 1 < vn.length →
      densityOf vn vl =
        (2 * vl.length : ℚ) / ((vn.length : ℚ) * ((vn.length : ℚ) - 1))) ∧
    (∀ (vn : List BNode) (vl : List BLink), vn.length = 0 → avgDegreeOf vn vl = 0) ∧
    (∀ (vn : List BNode) (vl : List BLink), vn.length ≠ 0 →
      avgDegreeOf vn vl = (vl.length : ℚ) / (vn.length : ℚ) * 2) ∧
    (∀ (vn : List BNode), (topNodesOf vn).length ≤ 5) ∧
    (∀ (vn : List BNode), (stableSortDesc (fun n => n.val) vn).Perm vn) ∧
    (∀ (vn : List BNode),
      (stableSortDesc (fun n => n.val) vn).Pairwise (fun a b => b.val ≤ a.val)) ∧
    (densityOf
      (visibleParts (buildGraph exampleGraph).1 (buildGraph exampleGraph).2 none false).1
      (visibleParts (buildGraph exampleGraph).1 (buildGraph exampleGraph).2 none false).2
      = 1 / 2) ∧
    (avgDegreeOf
      (visibleParts (buildGraph exampleGraph).1 (buildGraph exampleGraph).2 none false).1
      (visibleParts (buildGraph exampleGraph).1 (buildGraph exampleGraph).2 none false).2
      = 3 / 2) ∧
    ((topNodesOf
      (visibleParts (buildGraph exampleGraph).1 (buildGraph exampleGraph).2 none false).1).map
        (fun n => n.id) = ["B", "C", "A", "D"]) := by
  have hN : (visibleParts (buildGraph exampleGraph).1 (buildGraph exampleGraph).2
      none false).1.length = 4 := by decide
  have hE : (visibleParts (buildGraph exampleGraph).1 (buildGraph exampleGraph).2
      none false).2.length = 3 := by decide
  have hnodes : (visibleParts (buildGraph exampleGraph).1 (buildGraph exampleGraph).2
      none false).1 =
      [{ id := "A", label := "A", type := "Person", val := 1 + 2/5,
         neighbors := ["B"] },
       { id := "B", label := "B", type := "Person", val := 1 + 2/5 + 2/5,
         neighbors := ["A", "C"] },
       { id := "C", label := "C", type := "Organization", val := 1 + 2/5 + 2/5,
         neighbors := ["B", "D"] },
       { id := "D", label := "D", type := "Location", val := 1 + 2/5,
         neighbors := ["C"] }] := rfl
  refine ⟨?_, ?_, ?_, ?_, ?_, stableSortDesc_perm _, stableSortDesc_pairwise _,
    ?_, ?_, ?_⟩
  · intro vn vl h
    rw [densityOf, if_neg (by omega)]
  · intro vn vl h
    rw [densityOf, if_pos h]
  · intro vn vl h
    rw [avgDegreeOf, if_neg (by omega)]
  · intro vn vl h
    rw [avgDegreeOf, if_pos h]
  · intro vn
    rw [topNodesOf]
    have := List.length_take 5 (stableSortDesc (fun n => n.val) vn)
    omega
  · rw [densityOf, if_pos (by rw [hN]; omega), hN, hE]
    norm_num
  · rw [avgDegreeOf, if_pos (by rw [hN]; omega), hN, hE]
    norm_num
  · rw [hnodes, topNodesOf]
    norm_num [stableSortDesc, insertDesc]

/-- Witness for `graph_metrics_spec` at concrete inputs. -/
theorem graph_metrics_spec_witness :
    densityOf [] [] = 0 ∧ avgDegreeOf [] [] = 0 :=
  ⟨graph_metrics_spec.1 [] [] (by decide),
   graph_metrics_spec.2.2.1 [] [] (by decide)⟩

/-! ### Type-clustering centroid lookup -/

/-- C8 (amended): the centroid lookup is a **case-sensitive** substring
match, in `typeFoci` key order, over `node.type || 'default'`: any type
containing the exact key `"Person"` maps to the Person centroid, the exact
keys map to their centroids, and an unrecognized type — including the
lowercase `"person"`, which does not contain `"Person"` — falls back to the
origin centroid (0, 0). -/
theorem centroid_lookup_spec :
    (∀ t : String, jsIncludes t "Person" = true → centroidFor t = (-180, -120)) ∧
    centroidFor "Person" = (-180, -120) ∧
    centroidFor "Organization" = (180, -120) ∧
    centroidFor "Location" = (0, 180) ∧
    centroidFor "person" = (0, 0) ∧
    centroidFor "Mystery" = (0, 0) ∧
    centroidFor "" = (0, 0) := by
  refine ⟨?_, rfl, rfl, rfl, rfl, rfl, rfl⟩
  intro t h
  have ht : t ≠ "" := by
    intro he
    rw [he] at h
    exact absurd h (by decide)
  rw [centroidFor]
  simp only [if_neg ht]
  rw [typeFoci, List.find?_cons_of_pos _ (by simpa using h)]

/-- Witness for `centroid_lookup_spec` at a concrete type string. -/
theorem centroid_lookup_spec_witness :
    jsIncludes "The Person Entity" "Person" = true ∧
    centroidFor "The Person Entity" = (-180, -120) :=
  ⟨by decide, centroid_lookup_spec.1 "The Person Entity" (by decide)⟩

/-- C8 counterexample: a node typed `"person"` (lowercase) is assigned the
origin centroid, not the Person centroid — `String.prototype.includes` is
case-sensitive, refuting the claimed case-insensitive match. -/
theorem centroid_case_sensitive_counterexample :
    centroidFor "person" = (0, 0) ∧
    ((0 : ℚ), (0 : ℚ)) ≠ ((-180 : ℚ), (-120 : ℚ)) := by
  refine ⟨rfl, ?_⟩
  intro h
  have h1 := congrArg Prod.fst h
  norm_num at h1

end CDP
